import Mathlib

/-!
Verification of the core transformation of `src/app.py` (Excel Data Classifier).

The core is `process_excel_data(file, separator)` (app.py lines 37-59):
read a table, check that the required columns `'Type'` and `'Object Name'`
are present, and build the derived table
`df.groupby('Type')['Object Name'].agg(join_unique).reset_index()` where
`join_unique(values) = separator.join(list(set(values)))` (lines 49-53).

The embedding models a pandas DataFrame as a `Table` (column names plus
rows of cells, where a cell is either a string or the missing value `NaN`),
and models the pandas operations used by the source:

* `groupby('Type')` with its default arguments `sort=True` (the distinct
  group keys are emitted in ascending order, compared as Python strings,
  i.e. code-point lexicographically) and `dropna=True` (rows whose key
  cell is missing are dropped);
* `agg(join_unique)`, where the values of each group are collected in row
  order, and `list(set(values))` is modelled by an arbitrary set
  enumeration: any function returning the distinct elements, without
  duplicates, in some order (CPython's set iteration order for strings is
  hash-seed dependent, so no particular order may be assumed);
* `separator.join` raising `TypeError` when a collected value is `NaN`
  (a float), and the surrounding `try/except` turning any exception into
  the result `(None, None)`.
-/

namespace GroupedExcel

/-- One cell of the table: either missing (pandas `NaN`) or a string value. -/
inductive Cell where
  | na : Cell
  | str : String → Cell
deriving DecidableEq

/-- One row of the table, one cell per column, positionally aligned with
the table's column list. -/
abbrev Row := List Cell

/-- A parsed spreadsheet: ordered column names plus ordered rows, modelling
the pandas DataFrame read at app.py line 40. -/
structure Table where
  columns : List String
  rows : List Row
deriving DecidableEq

/-- The required columns, app.py line 43: `required_columns = ['Type', 'Object Name']`. -/
def requiredColumns : List String := ["Type", "Object Name"]

/-- Cell of row `r` in the column named `c` (first column of that name,
as pandas column selection does); missing columns or short rows read as `NaN`. -/
def cellAt (cols : List String) (r : Row) (c : String) : Cell :=
  match cols.findIdx? (fun x => x == c) with
  | some i => r.getD i Cell.na
  | none => Cell.na

/-- The string carried by a cell, or `none` for `NaN`. -/
def cellStr : Cell → Option String
  | Cell.na => none
  | Cell.str s => some s

/-- The group key of a row: its `'Type'` cell, `none` when missing. -/
def keyOf (cols : List String) (r : Row) : Option String :=
  cellStr (cellAt cols r "Type")

/-- The keys of all rows whose `'Type'` cell is present, in row order.
Rows with a missing key are dropped, as `groupby(dropna=True)` does. -/
def nonNullKeys (cols : List String) (rows : List Row) : List String :=
  rows.filterMap (keyOf cols)

/-- Python string comparison on code points (strict), used by pandas when
sorting the group keys: lexicographic on the character sequences. -/
def strLtB : List Char → List Char → Bool
  | [], [] => false
  | [], _ :: _ => true
  | _ :: _, [] => false
  | a :: as, b :: bs => if a = b then strLtB as bs else decide (a < b)

/-- Python string order, non-strict form, as a relation on `String`. -/
def pyLe (a b : String) : Prop := strLtB b.data a.data = false

/-- Python string order, strict form, as a relation on `String`. -/
def pyLt (a b : String) : Prop := strLtB a.data b.data = true

instance : DecidableRel pyLe := fun a b => by unfold pyLe; infer_instance

instance : DecidableRel pyLt := fun a b => by unfold pyLt; infer_instance

theorem strLtB_irrefl : ∀ l : List Char, strLtB l l = false
  | [] => rfl
  | a :: as => by simp [strLtB, strLtB_irrefl as]

theorem strLtB_trans : ∀ {a b c : List Char},
    strLtB a b = true → strLtB b c = true → strLtB a c = true
  | [], [], _ :: _, _, _ => rfl
  | [], _ :: _, _ :: _, _, _ => rfl
  | a :: as, b :: bs, c :: cs, h₁, h₂ => by
    simp only [strLtB] at h₁ h₂ ⊢
    by_cases hab : a = b
    · subst hab
      by_cases hbc : a = c
      · subst hbc
        simp only [if_pos rfl] at h₁ h₂ ⊢
        exact strLtB_trans h₁ h₂
      · simp only [if_pos rfl] at h₁
        simp only [if_neg hbc] at h₂ ⊢
        exact h₂
    · by_cases hbc : b = c
      · subst hbc
        simp only [if_neg hab] at h₁ ⊢
        exact h₁
      · simp only [if_neg hab] at h₁
        simp only [if_neg hbc] at h₂
        have hac : a < c := lt_trans (of_decide_eq_true h₁) (of_decide_eq_true h₂)
        simp only [if_neg (ne_of_lt hac)]
        exact decide_eq_true hac

theorem strLtB_eq_of_ff : ∀ {a b : List Char},
    strLtB a b = false → strLtB b a = false → a = b
  | [], [], _, _ => rfl
  | [], _ :: _, h, _ => by simp [strLtB] at h
  | _ :: _, [], _, h => by simp [strLtB] at h
  | a :: as, b :: bs, h₁, h₂ => by
    simp only [strLtB] at h₁ h₂
    by_cases hab : a = b
    · subst hab; simp at h₁ h₂; rw [strLtB_eq_of_ff h₁ h₂]
    · have hba : ¬ b = a := fun h => hab h.symm
      simp [hab, hba] at h₁ h₂
      exact absurd (lt_or_gt_of_ne hab) (by push_neg; exact ⟨h₁, h₂⟩)

theorem strLtB_asymm {a b : List Char} (h : strLtB a b = true) : strLtB b a = false := by
  by_contra hc
  have h2 : strLtB b a = true := eq_true_of_ne_false hc
  have h3 := strLtB_trans h h2
  rw [strLtB_irrefl] at h3
  exact Bool.noConfusion h3

instance : IsTotal String pyLe :=
  ⟨fun a b => by
    unfold pyLe
    by_cases h : strLtB b.data a.data = true
    · exact Or.inr (strLtB_asymm h)
    · exact Or.inl (Bool.eq_false_iff.mpr h)⟩

instance : IsTrans String pyLe :=
  ⟨fun a b c hab hbc => by
    unfold pyLe at *
    by_contra hc
    have hca : strLtB c.data a.data = true := eq_true_of_ne_false hc
    by_cases hbcb : strLtB b.data c.data = true
    · have h3 := strLtB_trans hbcb hca
      rw [h3] at hab
      exact Bool.noConfusion hab
    · have heq : b.data = c.data :=
        strLtB_eq_of_ff (Bool.eq_false_iff.mpr hbcb) hbc
      rw [heq, hca] at hab
      exact Bool.noConfusion hab⟩

/-- Distinct non-null group keys in ascending Python-string order: the index
produced by `df.groupby('Type')` with its defaults `sort=True, dropna=True`
(app.py line 53). -/
def sortedKeysOf (cols : List String) (rows : List Row) : List String :=
  List.insertionSort pyLe (nonNullKeys cols rows).dedup

/-- The `'Object Name'` cells of the rows of group `k`, in row order: the
series handed to `join_unique` by `agg` for that group. -/
def valuesFor (cols : List String) (rows : List Row) (k : String) : List Cell :=
  (rows.filter (fun r => keyOf cols r == some k)).map (fun r => cellAt cols r "Object Name")

/-- The string values among a list of cells (missing cells skipped). -/
def strValues (l : List Cell) : List String := l.filterMap cellStr

/-- The string values of group `k`. -/
def strValuesFor (cols : List String) (rows : List Row) (k : String) : List String :=
  strValues (valuesFor cols rows k)

/-- All cells as strings, or `none` if any cell is missing: a missing value
among the collected cells makes `separator.join` raise `TypeError` (a float
cannot be joined), which the source's `try/except` turns into a failure. -/
def cellsToStrings : List Cell → Option (List String)
  | [] => some []
  | Cell.na :: _ => none
  | Cell.str s :: l => (cellsToStrings l).map (fun vs => s :: vs)

/-- Python `separator.join(values)`: the values concatenated with the
separator inserted between consecutive values. -/
def pyJoin (sep : String) : List String → String
  | [] => ""
  | [v] => v
  | v :: w :: vs => v ++ sep ++ pyJoin sep (w :: vs)

/-- A set enumeration: a faithful model of Python's `list(set(values))`
(app.py line 50). It returns the distinct elements of its input — no
duplicates, same membership — in an unspecified order (CPython's set
iteration order for strings depends on the per-process hash seed). -/
def IsSetEnum (e : List String → List String) : Prop :=
  ∀ l : List String, (e l).Nodup ∧ ∀ v, v ∈ e l ↔ v ∈ l

/-- The function `join_unique` of app.py lines 49-51, for a fixed set
enumeration `e`: `separator.join(list(set(values)))`. -/
def joinUnique (e : List String → List String) (sep : String) (values : List String) : String :=
  pyJoin sep (e values)

/-- The aggregated cell of group `k`: `join_unique` applied to the group's
values; `none` models the `TypeError` raised on a missing value. -/
def groupCell (e : List String → List String) (sep : String)
    (cols : List String) (rows : List Row) (k : String) : Option String :=
  (cellsToStrings (valuesFor cols rows k)).map (joinUnique e sep)

/-- One derived row per group key, in the given key order; `none` as soon
as one group's aggregation raises. -/
def buildRows (e : List String → List String) (sep : String)
    (cols : List String) (rows : List Row) : List String → Option (List Row)
  | [] => some []
  | k :: ks =>
    match groupCell e sep cols rows k, buildRows e sep cols rows ks with
    | some j, some rs => some ([Cell.str k, Cell.str j] :: rs)
    | _, _ => none

/-- The derived table `df.groupby('Type')['Object Name'].agg(join_unique).reset_index()`
of app.py line 53: one row per distinct non-null key in ascending key order,
with columns `['Type', 'Object Name']` restored by `reset_index`. -/
def groupTable (e : List String → List String) (sep : String) (t : Table) : Option Table :=
  (buildRows e sep t.columns t.rows (sortedKeysOf t.columns t.rows)).map
    (fun rs => Table.mk ["Type", "Object Name"] rs)

/-- The column-validation step, app.py lines 43-46: when
`not all(col in df.columns for col in required_columns)`, the source
displays `st.error(f"File must contain columns: {required_columns}")` —
the reported list is `required_columns` itself. This returns the list of
column names shown by that error, or `none` when validation passes. -/
def validationError (t : Table) : Option (List String) :=
  if requiredColumns.all (fun c => t.columns.contains c) then none
  else some requiredColumns

/-- The whole of `process_excel_data` (app.py lines 37-59) for a fixed set
enumeration `e`. The input is the outcome of `pd.read_excel`: `none` when
reading raised (malformed file), caught by the `except` clause. Every
failure path — read error, missing columns, aggregation error — returns
`(none, none)`; on success the original table and the derived table are
returned. -/
def process (e : List String → List String) (sep : String)
    (input : Option Table) : Option Table × Option Table :=
  match input with
  | none => (none, none)
  | some df =>
    match validationError df with
    | some _ => (none, none)
    | none =>
      match groupTable e sep df with
      | some g => (some df, some g)
      | none => (none, none)

/-- The group keys carried by the rows of a derived table (first cell of
each row). -/
def derivedKeys (g : Table) : List String :=
  g.rows.filterMap (fun rw => cellStr (rw.getD 0 Cell.na))

/-- Modelled from the spec: the distinct group keys in first-appearance
order, "the position of the first input row carrying that key when
scanning rows top-to-bottom" — the order the spec asserts for the derived
rows. Not present in the source, which relies on pandas' sorted order. -/
def specFirstAppearanceKeys (t : Table) : List String :=
  (nonNullKeys t.columns t.rows).foldl
    (fun acc k => if k ∈ acc then acc else acc ++ [k]) []

/-- Modelled from the spec: the required columns absent from the table —
the list a `SchemaError` is asserted to carry ("naming every missing
required column name"). Not present in the source, whose error message
names the whole required list. -/
def specMissingColumns (t : Table) : List String :=
  requiredColumns.filter (fun c => !(t.columns.contains c))

/-- A second admissible set enumeration (distinct elements, reversed):
used to exhibit the set-iteration-order ambiguity of `list(set(...))`. -/
def revDedup (l : List String) : List String := l.dedup.reverse

/-- Leftmost occurrence of `sep` in `s`: the part before it and the part
after it, or `none` when `sep` does not occur. -/
def findSep (sep : List Char) : List Char → Option (List Char × List Char)
  | [] => if sep.isPrefixOf ([] : List Char) then some ([], []) else none
  | c :: cs =>
    if sep.isPrefixOf (c :: cs) then some ([], (c :: cs).drop sep.length)
    else (findSep sep cs).map (fun pr => (c :: pr.1, pr.2))

/-- Fuelled worker for splitting on a separator. -/
def splitSepAux (sep : List Char) : Nat → List Char → List (List Char)
  | 0, s => [s]
  | fuel + 1, s =>
    match findSep sep s with
    | none => [s]
    | some (p, r) => p :: splitSepAux sep fuel r

/-- Split a character sequence on a (nonempty) separator, leftmost-first
and non-overlapping. -/
def splitSepChar (sep s : List Char) : List (List Char) :=
  splitSepAux sep (s.length + 1) s

/-- Modelled from the spec: Python's `text.split(separator)`, the operation
the spec's deduplication law applies to the joined output text. Not in the
source, which only joins. -/
def pySplit (sep s : String) : List String :=
  (splitSepChar sep.data s.data).map (fun l => String.mk l)

/-- Character-level join with separator, mirror of `pyJoin`. -/
def joinSepChar (sep : List Char) : List (List Char) → List Char
  | [] => []
  | [v] => v
  | v :: w :: vs => v ++ sep ++ joinSepChar sep (w :: vs)

/-- The separator has no self-overlap: no nonempty proper prefix of it is
also a suffix of it. Splitting can only be guaranteed to invert joining
for such separators (e.g. `" OR "` overlaps itself via `" "`). -/
def OverlapFree (sep : List Char) : Prop :=
  ∀ m, m < sep.length → 0 < m → sep.take m ≠ sep.drop (sep.length - m)

instance (sep : List Char) : Decidable (OverlapFree sep) := by
  unfold OverlapFree; infer_instance

/-! Helper lemmas about the embedding. -/

theorem stringDataInj : ∀ {a b : String}, a.data = b.data → a = b
  | ⟨_⟩, ⟨_⟩, h => congrArg String.mk h

theorem pyLt_of_pyLe_ne {a b : String} (hle : pyLe a b) (hne : a ≠ b) : pyLt a b := by
  unfold pyLe at hle
  unfold pyLt
  cases hlt : strLtB a.data b.data with
  | true => rfl
  | false => exact absurd (stringDataInj (strLtB_eq_of_ff hlt hle)) hne

theorem cellsToStrings_eq_some : ∀ {l : List Cell} {vs : List String},
    cellsToStrings l = some vs → vs = strValues l
  | [], vs, h => by
    have h' : some ([] : List String) = some vs := h
    simp only [Option.some_inj] at h'
    simp [← h', strValues]
  | Cell.na :: _, _, h => Option.noConfusion h
  | Cell.str s :: l, vs, h => by
    simp only [cellsToStrings] at h
    rcases Option.map_eq_some'.mp h with ⟨ws, hws, hvs⟩
    rw [← hvs, cellsToStrings_eq_some hws]
    simp [strValues, List.filterMap_cons, cellStr]

theorem cellsToStrings_isSome_iff : ∀ {l : List Cell},
    (cellsToStrings l).isSome ↔ ∀ c ∈ l, c ≠ Cell.na
  | [] => by simp [cellsToStrings]
  | Cell.na :: l => by simp [cellsToStrings, List.forall_mem_cons]
  | Cell.str s :: l => by
    have hiff := @cellsToStrings_isSome_iff l
    simp only [cellsToStrings, Option.isSome_map']
    rw [hiff, List.forall_mem_cons]
    constructor
    · intro h
      exact ⟨fun hna => Cell.noConfusion hna, h⟩
    · intro h
      exact h.2

theorem groupCell_eq_some {e : List String → List String} {sep : String}
    {cols : List String} {rows : List Row} {k : String} {j : String}
    (h : groupCell e sep cols rows k = some j) :
    j = joinUnique e sep (strValuesFor cols rows k) ∧
      (cellsToStrings (valuesFor cols rows k)).isSome := by
  unfold groupCell at h
  cases hc : cellsToStrings (valuesFor cols rows k) with
  | none => rw [hc] at h; exact absurd h (by simp)
  | some vs =>
    rw [hc] at h
    simp only [Option.map_some', Option.some_inj] at h
    refine ⟨?_, by simp [hc]⟩
    rw [← h, cellsToStrings_eq_some hc]
    rfl

theorem groupCell_eq_some_of {e : List String → List String} {sep : String}
    {cols : List String} {rows : List Row} {k : String}
    (h : (cellsToStrings (valuesFor cols rows k)).isSome) :
    groupCell e sep cols rows k = some (joinUnique e sep (strValuesFor cols rows k)) := by
  unfold groupCell
  cases hc : cellsToStrings (valuesFor cols rows k) with
  | none => rw [hc] at h; exact absurd h (by simp)
  | some vs => rw [cellsToStrings_eq_some hc]; rfl

theorem buildRows_eq_some_of {e : List String → List String} {sep : String}
    {cols : List String} {rows : List Row} :
    ∀ {ks : List String}, (∀ k ∈ ks, (cellsToStrings (valuesFor cols rows k)).isSome) →
      buildRows e sep cols rows ks =
        some (ks.map fun k =>
          [Cell.str k, Cell.str (joinUnique e sep (strValuesFor cols rows k))])
  | [], _ => rfl
  | k :: ks, h => by
    have hk : groupCell e sep cols rows k =
        some (joinUnique e sep (strValuesFor cols rows k)) :=
      groupCell_eq_some_of (h k (List.mem_cons_self k ks))
    have hks : buildRows e sep cols rows ks =
        some (ks.map fun k =>
          [Cell.str k, Cell.str (joinUnique e sep (strValuesFor cols rows k))]) :=
      buildRows_eq_some_of (fun x hx => h x (List.mem_cons_of_mem k hx))
    simp [buildRows, hk, hks]

theorem buildRows_eq_some {e : List String → List String} {sep : String}
    {cols : List String} {rows : List Row} :
    ∀ {ks : List String} {rs : List Row}, buildRows e sep cols rows ks = some rs →
      (∀ k ∈ ks, (cellsToStrings (valuesFor cols rows k)).isSome) ∧
        rs = ks.map fun k =>
          [Cell.str k, Cell.str (joinUnique e sep (strValuesFor cols rows k))]
  | [], rs, h => by
    refine ⟨by simp, ?_⟩
    have h' : some ([] : List Row) = some rs := h
    simp only [Option.some_inj] at h'
    simp [← h']
  | k :: ks, rs, h => by
    simp only [buildRows] at h
    cases hk : groupCell e sep cols rows k with
    | none => rw [hk] at h; exact absurd h (by simp)
    | some j =>
      cases hks : buildRows e sep cols rows ks with
      | none => rw [hk, hks] at h; exact absurd h (by simp)
      | some rs' =>
        rw [hk, hks] at h
        simp only [Option.some_inj] at h
        obtain ⟨hj, hsome⟩ := groupCell_eq_some hk
        obtain ⟨hall, hrs'⟩ := buildRows_eq_some hks
        refine ⟨?_, ?_⟩
        · intro x hx
          rcases List.mem_cons.mp hx with hx | hx
          · rw [hx]; exact hsome
          · exact hall x hx
        · rw [← h, hrs', hj]
          simp

theorem buildRows_isSome_iff {e : List String → List String} {sep : String}
    {cols : List String} {rows : List Row} {ks : List String} :
    (buildRows e sep cols rows ks).isSome ↔
      ∀ k ∈ ks, (cellsToStrings (valuesFor cols rows k)).isSome := by
  constructor
  · intro h
    cases hb : buildRows e sep cols rows ks with
    | none => rw [hb] at h; exact absurd h (by simp)
    | some rs => exact (buildRows_eq_some hb).1
  · intro h
    rw [buildRows_eq_some_of h]
    rfl

theorem groupTable_eq_some {e : List String → List String} {sep : String}
    {t : Table} {g : Table} (h : groupTable e sep t = some g) :
    g = ⟨["Type", "Object Name"],
        (sortedKeysOf t.columns t.rows).map fun k =>
          [Cell.str k, Cell.str (joinUnique e sep (strValuesFor t.columns t.rows k))]⟩ ∧
      ∀ k ∈ sortedKeysOf t.columns t.rows,
        (cellsToStrings (valuesFor t.columns t.rows k)).isSome := by
  unfold groupTable at h
  cases hb : buildRows e sep t.columns t.rows (sortedKeysOf t.columns t.rows) with
  | none => rw [hb] at h; exact absurd h (by simp)
  | some rs =>
    rw [hb] at h
    simp only [Option.map_some', Option.some_inj] at h
    obtain ⟨hall, hrs⟩ := buildRows_eq_some hb
    exact ⟨by rw [← h, hrs], hall⟩

theorem groupTable_eq_some_of {e : List String → List String} {sep : String}
    {t : Table} (h : ∀ k ∈ sortedKeysOf t.columns t.rows,
      (cellsToStrings (valuesFor t.columns t.rows k)).isSome) :
    groupTable e sep t =
      some ⟨["Type", "Object Name"],
        (sortedKeysOf t.columns t.rows).map fun k =>
          [Cell.str k, Cell.str (joinUnique e sep (strValuesFor t.columns t.rows k))]⟩ := by
  unfold groupTable
  rw [buildRows_eq_some_of h]
  rfl

theorem groupTable_isSome_iff {e : List String → List String} {sep : String} {t : Table} :
    (groupTable e sep t).isSome ↔
      ∀ k ∈ sortedKeysOf t.columns t.rows,
        (cellsToStrings (valuesFor t.columns t.rows k)).isSome := by
  unfold groupTable
  rw [Option.isSome_map']
  exact buildRows_isSome_iff

theorem sortedKeysOf_perm (cols : List String) (rows : List Row) :
    List.Perm (sortedKeysOf cols rows) (nonNullKeys cols rows).dedup :=
  List.perm_insertionSort pyLe _

theorem mem_sortedKeysOf {cols : List String} {rows : List Row} {k : String} :
    k ∈ sortedKeysOf cols rows ↔ k ∈ nonNullKeys cols rows :=
  (sortedKeysOf_perm cols rows).mem_iff.trans List.mem_dedup

theorem nodup_sortedKeysOf (cols : List String) (rows : List Row) :
    (sortedKeysOf cols rows).Nodup :=
  (sortedKeysOf_perm cols rows).nodup_iff.mpr (nonNullKeys cols rows).nodup_dedup

theorem sorted_sortedKeysOf (cols : List String) (rows : List Row) :
    List.Sorted pyLe (sortedKeysOf cols rows) :=
  List.sorted_insertionSort pyLe _

theorem pairwise_pyLt_sortedKeysOf (cols : List String) (rows : List Row) :
    (sortedKeysOf cols rows).Pairwise pyLt := by
  have h := ((sorted_sortedKeysOf cols rows).and (nodup_sortedKeysOf cols rows))
  exact h.imp fun hab => pyLt_of_pyLe_ne hab.1 hab.2

theorem length_sortedKeysOf (cols : List String) (rows : List Row) :
    (sortedKeysOf cols rows).length = (nonNullKeys cols rows).dedup.length :=
  (sortedKeysOf_perm cols rows).length_eq

theorem filterMap_map_cancel {α β : Type} (f : α → β) (h : β → Option α)
    (hf : ∀ a, h (f a) = some a) : ∀ l : List α, (l.map f).filterMap h = l
  | [] => rfl
  | a :: l => by
    simp only [List.map_cons, List.filterMap_cons, hf a]
    rw [filterMap_map_cancel f h hf l]

theorem derivedKeys_of_groupTable {e : List String → List String} {sep : String}
    {t : Table} {g : Table} (h : groupTable e sep t = some g) :
    derivedKeys g = sortedKeysOf t.columns t.rows := by
  obtain ⟨hg, -⟩ := groupTable_eq_some h
  have hrows : g.rows = (sortedKeysOf t.columns t.rows).map fun k =>
      [Cell.str k, Cell.str (joinUnique e sep (strValuesFor t.columns t.rows k))] := by
    rw [hg]
  unfold derivedKeys
  rw [hrows]
  exact filterMap_map_cancel
    (fun k => [Cell.str k, Cell.str (joinUnique e sep (strValuesFor t.columns t.rows k))])
    (fun rw => cellStr (rw.getD 0 Cell.na))
    (fun a => rfl) _

theorem isSetEnum_dedup : IsSetEnum (fun l => l.dedup) :=
  fun l => ⟨l.nodup_dedup, fun _ => List.mem_dedup⟩

theorem isSetEnum_revDedup : IsSetEnum revDedup :=
  fun l => ⟨List.nodup_reverse.mpr l.nodup_dedup,
    fun _ => List.mem_reverse.trans List.mem_dedup⟩

theorem setEnum_ne_nil {e : List String → List String} (he : IsSetEnum e)
    {vs : List String} (h : vs ≠ []) : e vs ≠ [] := by
  obtain ⟨x, hx⟩ := List.exists_mem_of_ne_nil vs h
  intro hnil
  have hmem := ((he vs).2 x).mpr hx
  rw [hnil] at hmem
  exact List.not_mem_nil x hmem

theorem setEnum_eq_single {e : List String → List String} (he : IsSetEnum e)
    {vs : List String} {v : String} (hne : vs ≠ []) (hall : ∀ x ∈ vs, x = v) :
    e vs = [v] := by
  obtain ⟨hnd, hmem⟩ := he vs
  cases hevs : e vs with
  | nil => exact absurd hevs (setEnum_ne_nil he hne)
  | cons a l =>
    have ha : a = v := hall a ((hmem a).mp (hevs ▸ List.mem_cons_self a l))
    have hl : l = [] := by
      cases l with
      | nil => rfl
      | cons b l' =>
        have hb : b = v :=
          hall b ((hmem b).mp (hevs ▸ List.mem_cons_of_mem a (List.mem_cons_self b l')))
        rw [hevs] at hnd
        have hnotin := (List.nodup_cons.mp hnd).1
        rw [ha.trans hb.symm] at hnotin
        exact absurd (List.mem_cons_self b l') hnotin
    rw [ha, hl]

theorem setEnum_perm {e₁ e₂ : List String → List String} (h₁ : IsSetEnum e₁)
    (h₂ : IsSetEnum e₂) (l : List String) : List.Perm (e₁ l) (e₂ l) :=
  (List.perm_ext_iff_of_nodup (h₁ l).1 (h₂ l).1).mpr
    fun a => ((h₁ l).2 a).trans ((h₂ l).2 a).symm

theorem length_filterMap_eq_iff {α β : Type} {f : α → Option β} :
    ∀ {l : List α}, (l.filterMap f).length = l.length ↔ ∀ a ∈ l, (f a).isSome
  | [] => by simp
  | a :: l => by
    have hle := List.length_filterMap_le f l
    cases hfa : f a with
    | none =>
      simp only [List.filterMap_cons, hfa, List.length_cons, List.mem_cons]
      constructor
      · intro h; omega
      · intro h
        have := h a (Or.inl rfl)
        rw [hfa] at this
        exact absurd this (by simp)
    | some b =>
      simp only [List.filterMap_cons, hfa, List.length_cons, List.mem_cons,
        Nat.add_right_cancel_iff]
      rw [length_filterMap_eq_iff]
      constructor
      · intro h x hx
        rcases hx with hx | hx
        · rw [hx, hfa]; rfl
        · exact h x hx
      · intro h x hx
        exact h x (Or.inr hx)

theorem map_eq_filterMap_map_some {α β : Type} {f : α → Option β} :
    ∀ {l : List α}, (∀ a ∈ l, (f a).isSome) → l.map f = (l.filterMap f).map some
  | [], _ => rfl
  | a :: l, h => by
    cases hfa : f a with
    | none =>
      have := h a (List.mem_cons_self a l)
      rw [hfa] at this
      exact absurd this (by simp)
    | some b =>
      simp only [List.map_cons, List.filterMap_cons, hfa]
      rw [map_eq_filterMap_map_some fun x hx => h x (List.mem_cons_of_mem a hx)]

/-! Splitting a joined string recovers the joined values, provided the
separator is nonempty, does not overlap itself, and occurs in no value. -/

theorem findSep_of_isPrefixOf {sep s : List Char} (hs : s ≠ [])
    (hp : sep.isPrefixOf s = true) :
    findSep sep s = some ([], s.drop sep.length) := by
  cases s with
  | nil => exact absurd rfl hs
  | cons c cs =>
    simp only [findSep]
    rw [if_pos hp]

theorem findSep_cons_of_not {sep : List Char} {c : Char} {cs : List Char}
    (hp : ¬ sep.isPrefixOf (c :: cs) = true) :
    findSep sep (c :: cs) = (findSep sep cs).map (fun pr => (c :: pr.1, pr.2)) := by
  simp only [findSep]
  rw [if_neg hp]

theorem findSep_eq_none {sep : List Char} : ∀ {s : List Char},
    ¬ (sep <:+: s) → findSep sep s = none
  | [], h => by
    simp only [findSep]
    rw [if_neg fun hp => h ((List.isPrefixOf_iff_prefix.mp hp).isInfix)]
  | c :: cs, h => by
    rw [findSep_cons_of_not fun hp => h ((List.isPrefixOf_iff_prefix.mp hp).isInfix),
      findSep_eq_none fun hi => h (List.infix_cons hi)]
    rfl

theorem findSep_append {sep : List Char} (hne : sep ≠ []) (hov : OverlapFree sep)
    (t : List Char) :
    ∀ v : List Char, ¬ (sep <:+: v) → findSep sep (v ++ (sep ++ t)) = some (v, t) := by
  intro v
  induction v with
  | nil =>
    intro _
    have hnil : sep ++ t ≠ [] := by
      intro h
      exact hne (List.append_eq_nil.mp h).1
    rw [List.nil_append,
      findSep_of_isPrefixOf hnil (List.isPrefixOf_iff_prefix.mpr (List.prefix_append sep t)),
      List.drop_left]
  | cons c cs ih =>
    intro hv
    have hL : 0 < (c :: cs).length := by simp
    have hnp : ¬ sep.isPrefixOf (c :: (cs ++ (sep ++ t))) = true := by
      intro hp
      have hpre : sep <+: ((c :: cs) ++ (sep ++ t)) := by
        rw [List.cons_append]
        exact List.isPrefixOf_iff_prefix.mp hp
      have h1 : sep = ((c :: cs) ++ (sep ++ t)).take sep.length :=
        List.prefix_iff_eq_take.mp hpre
      rcases le_or_lt sep.length (c :: cs).length with hle | hlt
      · rw [List.take_append_of_le_length hle] at h1
        have hpre2 : sep <+: (c :: cs) := by
          rw [h1]
          exact List.take_prefix sep.length (c :: cs)
        exact hv hpre2.isInfix
      · rw [List.take_append_eq_append_take,
          List.take_of_length_le (le_of_lt hlt),
          List.take_append_of_le_length (by omega)] at h1
        have hmlt : sep.length - (c :: cs).length < sep.length := by omega
        have hmpos : 0 < sep.length - (c :: cs).length := by omega
        have h2 : sep.drop (c :: cs).length = sep.take (sep.length - (c :: cs).length) := by
          conv_lhs => rw [h1]
          rw [List.drop_left]
        have h3 : sep.length - (sep.length - (c :: cs).length) = (c :: cs).length := by
          omega
        exact hov (sep.length - (c :: cs).length) hmlt hmpos (by rw [h3]; exact h2.symm)
    have hcs : ¬ (sep <:+: cs) := fun hi => hv (List.infix_cons hi)
    rw [List.cons_append, findSep_cons_of_not hnp, ih hcs]
    rfl

theorem splitSepAux_joinSepChar {sep : List Char} (hne : sep ≠ []) (hov : OverlapFree sep) :
    ∀ l : List (List Char), l ≠ [] → (∀ v ∈ l, ¬ (sep <:+: v)) →
      ∀ fuel, l.length ≤ fuel → splitSepAux sep fuel (joinSepChar sep l) = l := by
  intro l
  induction l with
  | nil => intro h; exact absurd rfl h
  | cons v rest ih =>
    intro _ hall fuel hfuel
    cases rest with
    | nil =>
      cases fuel with
      | zero => rfl
      | succ f =>
        simp only [joinSepChar, splitSepAux]
        rw [findSep_eq_none (hall v (List.mem_cons_self v []))]
    | cons w rest' =>
      cases fuel with
      | zero => simp [List.length_cons] at hfuel
      | succ f =>
        have hfind : findSep sep (v ++ (sep ++ joinSepChar sep (w :: rest'))) =
            some (v, joinSepChar sep (w :: rest')) :=
          findSep_append hne hov (joinSepChar sep (w :: rest')) v
            (hall v (List.mem_cons_self v (w :: rest')))
        have hjoin : joinSepChar sep (v :: w :: rest') =
            v ++ (sep ++ joinSepChar sep (w :: rest')) := by
          simp only [joinSepChar]
          rw [List.append_assoc]
        rw [hjoin]
        simp only [splitSepAux, hfind]
        rw [ih (List.cons_ne_nil w rest')
          (fun x hx => hall x (List.mem_cons_of_mem v hx)) f
          (by simp only [List.length_cons] at hfuel ⊢; omega)]

theorem length_le_joinSepChar {sep : List Char} (hne : sep ≠ []) :
    ∀ l : List (List Char), l.length ≤ (joinSepChar sep l).length + 1
  | [] => by simp
  | [v] => by simp [joinSepChar]
  | v :: w :: rest => by
    have ih := length_le_joinSepChar hne (w :: rest)
    have hsep : 0 < sep.length := List.length_pos.mpr hne
    simp only [joinSepChar, List.length_cons, List.length_append] at ih ⊢
    omega

theorem splitSepChar_joinSepChar {sep : List Char} (hne : sep ≠ []) (hov : OverlapFree sep)
    {l : List (List Char)} (hl : l ≠ []) (hall : ∀ v ∈ l, ¬ (sep <:+: v)) :
    splitSepChar sep (joinSepChar sep l) = l :=
  splitSepAux_joinSepChar hne hov l hl hall ((joinSepChar sep l).length + 1)
    (length_le_joinSepChar hne l)

theorem dataAppend (a b : String) : (a ++ b).data = a.data ++ b.data := by
  cases a; cases b; rfl

theorem mkData : ∀ s : String, String.mk s.data = s
  | ⟨_⟩ => rfl

theorem data_pyJoin (sep : String) : ∀ l : List String,
    (pyJoin sep l).data = joinSepChar sep.data (l.map String.data)
  | [] => rfl
  | [v] => rfl
  | v :: w :: vs => by
    simp only [pyJoin, joinSepChar, List.map_cons]
    rw [dataAppend, dataAppend, data_pyJoin sep (w :: vs)]
    simp only [joinSepChar, List.map_cons]

theorem map_mk_data : ∀ l : List String, (l.map String.data).map String.mk = l
  | [] => rfl
  | s :: l => by
    simp only [List.map_cons]
    rw [mkData s, map_mk_data l]

theorem pySplit_pyJoin {sep : String} (hne : sep.data ≠ []) (hov : OverlapFree sep.data)
    {l : List String} (hl : l ≠ []) (hall : ∀ v ∈ l, ¬ (sep.data <:+: v.data)) :
    pySplit sep (pyJoin sep l) = l := by
  have hmapne : l.map String.data ≠ [] := fun h => hl (List.map_eq_nil_iff.mp h)
  have hmapall : ∀ v ∈ l.map String.data, ¬ (sep.data <:+: v) := by
    intro v' hv'
    rcases List.mem_map.mp hv' with ⟨v, hv, rfl⟩
    exact hall v hv
  unfold pySplit
  rw [data_pyJoin sep l, splitSepChar_joinSepChar hne hov hmapne hmapall]
  exact map_mk_data l

theorem pySplit_joinUnique {e : List String → List String} (he : IsSetEnum e)
    {sep : String} {vs : List String} (hne : sep.data ≠ []) (hov : OverlapFree sep.data)
    (hvs : vs ≠ []) (hall : ∀ v ∈ vs, ¬ (sep.data <:+: v.data)) :
    pySplit sep (joinUnique e sep vs) = e vs := by
  unfold joinUnique
  exact pySplit_pyJoin hne hov (setEnum_ne_nil he hvs)
    (fun v hv => hall v (((he vs).2 v).mp hv))

/-- Rows whose key is present carry a string (non-missing) `'Object Name'`
cell: exactly the condition under which no group's `separator.join` raises. -/
def GoodValues (cols : List String) (rows : List Row) : Prop :=
  ∀ r ∈ rows, (keyOf cols r).isSome → cellAt cols r "Object Name" ≠ Cell.na

instance (cols : List String) (rows : List Row) : Decidable (GoodValues cols rows) := by
  unfold GoodValues; infer_instance

theorem cellsToStrings_isSome_of_goodValues {cols : List String} {rows : List Row}
    (hg : GoodValues cols rows) (k : String) :
    (cellsToStrings (valuesFor cols rows k)).isSome := by
  rw [cellsToStrings_isSome_iff]
  intro c hc
  unfold valuesFor at hc
  rcases List.mem_map.mp hc with ⟨r, hr, rfl⟩
  have hrf := List.mem_filter.mp hr
  have hkey : keyOf cols r = some k := by simpa using hrf.2
  exact hg r hrf.1 (by rw [hkey]; rfl)

theorem buildRows_congr {e : List String → List String} {sep : String}
    {cols : List String} {rows₁ rows₂ : List Row}
    (h : ∀ k, valuesFor cols rows₁ k = valuesFor cols rows₂ k) :
    ∀ ks : List String, buildRows e sep cols rows₁ ks = buildRows e sep cols rows₂ ks
  | [] => rfl
  | k :: ks => by
    have hgc : groupCell e sep cols rows₁ k = groupCell e sep cols rows₂ k := by
      unfold groupCell
      rw [h k]
    unfold buildRows
    rw [hgc, buildRows_congr h ks]

/-! Concrete tables used by counterexamples and witnesses. -/

/-- Two rows whose keys appear in the order `"B"`, `"A"`. -/
def tableBA : Table :=
  ⟨["Type", "Object Name"],
    [[Cell.str "B", Cell.str "x"], [Cell.str "A", Cell.str "y"]]⟩

/-- The derived table the code produces for `tableBA`. -/
def tableBAGrouped : Table :=
  ⟨["Type", "Object Name"],
    [[Cell.str "A", Cell.str "y"], [Cell.str "B", Cell.str "x"]]⟩

/-- A table whose column set lacks `"Object Name"`. -/
def tableMissingObj : Table := ⟨["Type"], [[Cell.str "Application"]]⟩

/-- A valid-schema table with a missing `'Object Name'` cell. -/
def tableNaObj : Table := ⟨["Type", "Object Name"], [[Cell.str "T", Cell.na]]⟩

/-- One group `"T"` with two distinct values `"a"`, `"b"`. -/
def tableTwoVals : Table :=
  ⟨["Type", "Object Name"],
    [[Cell.str "T", Cell.str "a"], [Cell.str "T", Cell.str "b"]]⟩

/-- The derived table the code produces for `tableTwoVals` under the
first-occurrence set enumeration. -/
def tableTwoValsGrouped : Table :=
  ⟨["Type", "Object Name"], [[Cell.str "T", Cell.str "a OR b"]]⟩

/-- One group `"T"` whose rows repeat the values `"a"`, `"b"`, `"a"`. -/
def tableThreeVals : Table :=
  ⟨["Type", "Object Name"],
    [[Cell.str "T", Cell.str "a"], [Cell.str "T", Cell.str "b"],
      [Cell.str "T", Cell.str "a"]]⟩

/-- One group `"T"` with a repeated single value `"a"`. -/
def tableOneVal : Table :=
  ⟨["Type", "Object Name"],
    [[Cell.str "T", Cell.str "a"], [Cell.str "T", Cell.str "a"]]⟩

/-- A zero-row table with the required columns (in reversed order). -/
def tableEmptyRev : Table := ⟨["Object Name", "Type"], []⟩

/-! The claims. -/

/-- C1, counterexample: on `tableBA` the code emits the derived rows in
ascending key order `["A", "B"]` (pandas `groupby(sort=True)`), not in the
first-appearance order `["B", "A"]` the claim asserts. -/
theorem claim1_counterexample :
    (groupTable (fun l => l.dedup) " OR " tableBA).map derivedKeys = some ["A", "B"] ∧
      specFirstAppearanceKeys tableBA = ["B", "A"] ∧
      (some ["A", "B"] : Option (List String)) ≠ some ["B", "A"] :=
  ⟨by decide, by decide, by decide⟩

/-- C1 (amended): for every table and separator, whenever grouping
succeeds, the derived table has one row per distinct non-null group key,
and its rows are ordered by strictly ascending group key under Python
string comparison (pandas sorted groupby order) — not by first appearance. -/
theorem claim1_sorted_order (e : List String → List String) (sep : String)
    (t g : Table) (hg : groupTable e sep t = some g) :
    (derivedKeys g).Pairwise pyLt ∧
      ∀ k, k ∈ derivedKeys g ↔ k ∈ nonNullKeys t.columns t.rows := by
  rw [derivedKeys_of_groupTable hg]
  exact ⟨pairwise_pyLt_sortedKeysOf _ _, fun k => mem_sortedKeysOf⟩

/-- C1, witness: the amended theorem applied to `tableBA`. -/
theorem claim1_sorted_order_witness :
    groupTable (fun l => l.dedup) " OR " tableBA = some tableBAGrouped ∧
      ((derivedKeys tableBAGrouped).Pairwise pyLt ∧
        ∀ k, k ∈ derivedKeys tableBAGrouped ↔ k ∈ nonNullKeys tableBA.columns tableBA.rows) :=
  ⟨by decide, claim1_sorted_order (fun l => l.dedup) " OR " tableBA tableBAGrouped (by decide)⟩

/-- C2, counterexample: for a table missing only `"Object Name"`, the code's
validation error names the whole required list `["Type", "Object Name"]`
(app.py line 45 prints `required_columns`), not exactly the missing
column `["Object Name"]` as the claim asserts. -/
theorem claim2_counterexample :
    specMissingColumns tableMissingObj = ["Object Name"] ∧
      validationError tableMissingObj = some ["Type", "Object Name"] ∧
      (some ["Type", "Object Name"] : Option (List String)) ≠ some ["Object Name"] :=
  ⟨by decide, by decide, by decide⟩

/-- C2 (amended): for every table missing at least one required column,
validation fails — the function reports an error and returns
`(None, None)` — and the error names the entire required-column list
`["Type", "Object Name"]`, regardless of which columns are missing. -/
theorem claim2_error_names_required (t : Table) (h : specMissingColumns t ≠ []) :
    validationError t = some requiredColumns ∧
      ∀ (e : List String → List String) (sep : String),
        process e sep (some t) = (none, none) := by
  have hall : requiredColumns.all (fun c => t.columns.contains c) = false := by
    cases hcase : requiredColumns.all (fun c => t.columns.contains c) with
    | false => rfl
    | true =>
      exfalso
      apply h
      unfold specMissingColumns
      rw [List.filter_eq_nil_iff]
      intro c hc
      have hmem := List.all_eq_true.mp hcase c hc
      have hmem' : c ∈ t.columns := by simpa using hmem
      simp [hmem']
  have hv : validationError t = some requiredColumns := by
    unfold validationError
    rw [hall]
    rfl
  exact ⟨hv, fun e sep => by simp [process, hv]⟩

/-- C2, witness: the amended theorem applied to `tableMissingObj`. -/
theorem claim2_error_names_required_witness :
    specMissingColumns tableMissingObj ≠ [] ∧
      (validationError tableMissingObj = some requiredColumns ∧
        ∀ (e : List String → List String) (sep : String),
          process e sep (some tableMissingObj) = (none, none)) :=
  ⟨by decide, claim2_error_names_required tableMissingObj (by decide)⟩

/-- C9: for every input (including a failed read, modelled as `none`) the
processing function returns either the full pair — the original table and
a derived table — or exactly `(none, none)`; no partial result is ever
observable, and every failure path yields `(none, none)`. -/
theorem claim9_no_partial (e : List String → List String) (sep : String)
    (input : Option Table) :
    process e sep input = (none, none) ∨
      ∃ df g, input = some df ∧ process e sep input = (some df, some g) := by
  cases input with
  | none => exact Or.inl rfl
  | some df =>
    cases hv : validationError df with
    | some m => exact Or.inl (by simp [process, hv])
    | none =>
      cases hg : groupTable e sep df with
      | none => exact Or.inl (by simp [process, hv, hg])
      | some g => exact Or.inr ⟨df, g, rfl, by simp [process, hv, hg]⟩

/-- C10: a row whose `'Type'` cell is missing is silently dropped by the
grouping step — appending such a row to a table leaves the derived table
unchanged — and every derived row carries a non-null key taken from some
input row, so no derived row is emitted for the null key. -/
theorem claim10_null_keys_dropped (e : List String → List String) (sep : String)
    (t : Table) (r : Row) (hr : cellAt t.columns r "Type" = Cell.na) :
    groupTable e sep ⟨t.columns, t.rows ++ [r]⟩ = groupTable e sep t ∧
      ∀ g, groupTable e sep t = some g →
        ∀ dr ∈ g.rows, ∃ k j, dr = [Cell.str k, Cell.str j] ∧
          some k ∈ t.rows.map (keyOf t.columns) := by
  have hkey : keyOf t.columns r = none := by
    unfold keyOf
    rw [hr]
    rfl
  constructor
  · have hkeys : nonNullKeys t.columns (t.rows ++ [r]) = nonNullKeys t.columns t.rows := by
      unfold nonNullKeys
      rw [List.filterMap_append]
      simp [List.filterMap_cons, hkey]
    have hvals : ∀ k, valuesFor t.columns (t.rows ++ [r]) k = valuesFor t.columns t.rows k := by
      intro k
      unfold valuesFor
      rw [List.filter_append]
      simp [List.filter_cons, hkey]
    show (buildRows e sep t.columns (t.rows ++ [r])
        (sortedKeysOf t.columns (t.rows ++ [r]))).map
          (fun rs => Table.mk ["Type", "Object Name"] rs) = groupTable e sep t
    have hsorted : sortedKeysOf t.columns (t.rows ++ [r]) = sortedKeysOf t.columns t.rows := by
      unfold sortedKeysOf
      rw [hkeys]
    rw [hsorted, buildRows_congr hvals (sortedKeysOf t.columns t.rows)]
    rfl
  · intro g hg dr hdr
    obtain ⟨hgeq, -⟩ := groupTable_eq_some hg
    rw [hgeq] at hdr
    rcases List.mem_map.mp hdr with ⟨k, hk, rfl⟩
    refine ⟨k, joinUnique e sep (strValuesFor t.columns t.rows k), rfl, ?_⟩
    have hkmem : k ∈ nonNullKeys t.columns t.rows := mem_sortedKeysOf.mp hk
    rcases List.mem_filterMap.mp hkmem with ⟨r', hr', hkr'⟩
    exact List.mem_map.mpr ⟨r', hr', hkr'⟩

/-- C10, witness: the theorem applied to `tableTwoVals` and a row whose
`'Type'` cell is missing. -/
theorem claim10_null_keys_dropped_witness :
    cellAt tableTwoVals.columns [Cell.na, Cell.str "z"] "Type" = Cell.na ∧
      (groupTable (fun l => l.dedup) " OR "
          ⟨tableTwoVals.columns, tableTwoVals.rows ++ [[Cell.na, Cell.str "z"]]⟩ =
        groupTable (fun l => l.dedup) " OR " tableTwoVals ∧
      ∀ g, groupTable (fun l => l.dedup) " OR " tableTwoVals = some g →
        ∀ dr ∈ g.rows, ∃ k j, dr = [Cell.str k, Cell.str j] ∧
          some k ∈ tableTwoVals.rows.map (keyOf tableTwoVals.columns)) :=
  ⟨by decide, claim10_null_keys_dropped (fun l => l.dedup) " OR " tableTwoVals
    [Cell.na, Cell.str "z"] (by decide)⟩

/-- C3, counterexample: with separator `" OR "` and a group whose single
value `"a OR a"` contains the separator, splitting the joined output on the
separator yields `["a", "a"]` — a collection with duplicates whose set
differs from the group's distinct values — refuting the claim for
arbitrary separators. -/
theorem claim3_counterexample :
    groupCell (fun l => l.dedup) " OR " ["Type", "Object Name"]
        [[Cell.str "T", Cell.str "a OR a"]] "T" = some "a OR a" ∧
      pySplit " OR " "a OR a" = ["a", "a"] ∧
      ¬ (["a", "a"] : List String).Nodup :=
  ⟨by decide, by decide, by decide⟩

/-- C3 (amended): for every group whose aggregation succeeds, splitting the
joined output text on the separator yields a duplicate-free collection
whose members are exactly the distinct `'Object Name'` values of the
group's rows — provided the separator is nonempty, does not overlap
itself, and occurs as a substring of none of the group's values. -/
theorem claim3_dedup_law (e : List String → List String) (he : IsSetEnum e)
    (sep : String) (cols : List String) (rows : List Row) (k j : String)
    (hk : groupCell e sep cols rows k = some j)
    (hvs : strValuesFor cols rows k ≠ [])
    (hsep : sep.data ≠ []) (hov : OverlapFree sep.data)
    (hnotin : ∀ v ∈ strValuesFor cols rows k, ¬ (sep.data <:+: v.data)) :
    (pySplit sep j).Nodup ∧
      ∀ x, x ∈ pySplit sep j ↔ x ∈ strValuesFor cols rows k := by
  obtain ⟨hj, hsome⟩ := groupCell_eq_some hk
  subst hj
  rw [pySplit_joinUnique he hsep hov hvs hnotin]
  exact ⟨(he _).1, (he _).2⟩

/-- C3, witness: the amended theorem applied to `tableThreeVals` with
separator `","`. -/
theorem claim3_dedup_law_witness :
    IsSetEnum (fun l => l.dedup) ∧
      groupCell (fun l => l.dedup) "," tableThreeVals.columns tableThreeVals.rows "T" =
        some "b,a" ∧
      strValuesFor tableThreeVals.columns tableThreeVals.rows "T" ≠ [] ∧
      ",".data ≠ [] ∧ OverlapFree ",".data ∧
      (∀ v ∈ strValuesFor tableThreeVals.columns tableThreeVals.rows "T",
        ¬ (",".data <:+: v.data)) ∧
      ((pySplit "," "b,a").Nodup ∧
        ∀ x, x ∈ pySplit "," "b,a" ↔
          x ∈ strValuesFor tableThreeVals.columns tableThreeVals.rows "T") :=
  ⟨isSetEnum_dedup, by decide, by decide, by decide, by decide, by decide,
    claim3_dedup_law (fun l => l.dedup) isSetEnum_dedup ","
      tableThreeVals.columns tableThreeVals.rows "T" "b,a"
      (by decide) (by decide) (by decide) (by decide) (by decide)⟩

/-- C4: whenever grouping succeeds, the derived table has at most as many
rows as the input, with equality exactly when every input row carries a
(present) group key and all those keys are pairwise distinct. -/
theorem claim4_row_count_bound (e : List String → List String) (sep : String)
    (t g : Table) (hg : groupTable e sep t = some g) :
    g.rows.length ≤ t.rows.length ∧
      (g.rows.length = t.rows.length ↔
        (∀ r ∈ t.rows, (keyOf t.columns r).isSome) ∧
          (t.rows.map (keyOf t.columns)).Nodup) := by
  obtain ⟨hgeq, -⟩ := groupTable_eq_some hg
  have hlen : g.rows.length = (nonNullKeys t.columns t.rows).dedup.length := by
    rw [hgeq]
    simp only [List.length_map]
    exact length_sortedKeysOf t.columns t.rows
  have hab : (nonNullKeys t.columns t.rows).dedup.length ≤
      (nonNullKeys t.columns t.rows).length :=
    (List.dedup_sublist _).length_le
  have hbc : (nonNullKeys t.columns t.rows).length ≤ t.rows.length :=
    List.length_filterMap_le _ _
  refine ⟨by omega, ?_⟩
  constructor
  · intro heq
    have hb : (nonNullKeys t.columns t.rows).length = t.rows.length := by omega
    have ha : (nonNullKeys t.columns t.rows).dedup.length =
        (nonNullKeys t.columns t.rows).length := by omega
    have hall : ∀ r ∈ t.rows, (keyOf t.columns r).isSome :=
      length_filterMap_eq_iff.mp hb
    have hndk : (nonNullKeys t.columns t.rows).Nodup := by
      have hdedup := (List.dedup_sublist (nonNullKeys t.columns t.rows)).eq_of_length ha
      rw [← hdedup]
      exact (nonNullKeys t.columns t.rows).nodup_dedup
    refine ⟨hall, ?_⟩
    rw [map_eq_filterMap_map_some hall]
    exact hndk.map (Option.some_injective _)
  · rintro ⟨hall, hnd⟩
    have hb : (nonNullKeys t.columns t.rows).length = t.rows.length :=
      length_filterMap_eq_iff.mpr hall
    have hndk : (nonNullKeys t.columns t.rows).Nodup := by
      rw [map_eq_filterMap_map_some hall] at hnd
      exact List.Nodup.of_map some hnd
    have ha : (nonNullKeys t.columns t.rows).dedup.length =
        (nonNullKeys t.columns t.rows).length := by
      rw [List.dedup_eq_self.mpr hndk]
    omega

/-- C4, witness: the theorem applied to `tableBA` (all keys distinct, so
the derived table has exactly as many rows as the input). -/
theorem claim4_row_count_bound_witness :
    groupTable (fun l => l.dedup) " OR " tableBA = some tableBAGrouped ∧
      (tableBAGrouped.rows.length ≤ tableBA.rows.length ∧
        (tableBAGrouped.rows.length = tableBA.rows.length ↔
          (∀ r ∈ tableBA.rows, (keyOf tableBA.columns r).isSome) ∧
            (tableBA.rows.map (keyOf tableBA.columns)).Nodup)) :=
  ⟨by decide,
    claim4_row_count_bound (fun l => l.dedup) " OR " tableBA tableBAGrouped (by decide)⟩

/-- C5, counterexample: `tableNaObj` contains both required columns and
passes validation, yet the code returns `(None, None)` — the original
table is not passed through — because the missing `'Object Name'` cell
makes the aggregation raise, refuting the claim as stated. -/
theorem claim5_counterexample :
    tableNaObj.columns.contains "Type" = true ∧
      tableNaObj.columns.contains "Object Name" = true ∧
      validationError tableNaObj = none ∧
      process (fun l => l.dedup) " OR " (some tableNaObj) = (none, none) ∧
      (process (fun l => l.dedup) " OR " (some tableNaObj)).1 ≠ some tableNaObj :=
  ⟨by decide, by decide, by decide, by decide, by decide⟩

/-- C5 (amended): for every table containing both required columns (exact,
case-sensitive names, any column order), validation passes; and provided
every row with a present key also carries a string `'Object Name'` cell
(so the aggregation does not raise), the original table is returned
unchanged as the first component of the result. -/
theorem claim5_passthrough (e : List String → List String) (sep : String) (t : Table)
    (hcols : requiredColumns.all (fun c => t.columns.contains c) = true)
    (hgood : GoodValues t.columns t.rows) :
    validationError t = none ∧ (process e sep (some t)).1 = some t := by
  have hv : validationError t = none := by
    unfold validationError
    rw [hcols]
    rfl
  refine ⟨hv, ?_⟩
  have hsome : (groupTable e sep t).isSome :=
    groupTable_isSome_iff.mpr fun k _ => cellsToStrings_isSome_of_goodValues hgood k
  rcases Option.isSome_iff_exists.mp hsome with ⟨g, hgsome⟩
  simp [process, hv, hgsome]

/-- C5, witness: the amended theorem applied to `tableBA`. -/
theorem claim5_passthrough_witness :
    requiredColumns.all (fun c => tableBA.columns.contains c) = true ∧
      GoodValues tableBA.columns tableBA.rows ∧
      (validationError tableBA = none ∧
        (process (fun l => l.dedup) " OR " (some tableBA)).1 = some tableBA) :=
  ⟨by decide, by decide,
    claim5_passthrough (fun l => l.dedup) " OR " tableBA (by decide) (by decide)⟩

/-- C6: for a group with exactly one distinct value, the aggregated cell
is that value verbatim — `join_unique` inserts no separator — for every
separator and every set enumeration. -/
theorem claim6_join_single (e : List String → List String) (he : IsSetEnum e)
    (sep : String) (cols : List String) (rows : List Row) (k v : String)
    (hgood : ∀ c ∈ valuesFor cols rows k, c ≠ Cell.na)
    (hne : strValuesFor cols rows k ≠ [])
    (hall : ∀ x ∈ strValuesFor cols rows k, x = v) :
    groupCell e sep cols rows k = some v := by
  have hsome : (cellsToStrings (valuesFor cols rows k)).isSome :=
    cellsToStrings_isSome_iff.mpr hgood
  rw [groupCell_eq_some_of hsome]
  unfold joinUnique
  rw [setEnum_eq_single he hne hall]
  rfl

/-- C6, witness: the theorem applied to `tableOneVal`, whose group `"T"`
repeats the single value `"a"`. -/
theorem claim6_join_single_witness :
    IsSetEnum (fun l => l.dedup) ∧
      (∀ c ∈ valuesFor tableOneVal.columns tableOneVal.rows "T", c ≠ Cell.na) ∧
      strValuesFor tableOneVal.columns tableOneVal.rows "T" ≠ [] ∧
      (∀ x ∈ strValuesFor tableOneVal.columns tableOneVal.rows "T", x = "a") ∧
      groupCell (fun l => l.dedup) " OR " tableOneVal.columns tableOneVal.rows "T" =
        some "a" :=
  ⟨isSetEnum_dedup, by decide, by decide, by decide,
    claim6_join_single (fun l => l.dedup) isSetEnum_dedup " OR "
      tableOneVal.columns tableOneVal.rows "T" "a" (by decide) (by decide) (by decide)⟩

/-- C7: a zero-row table with a valid column set is processed without
error: the result is the original table paired with a derived table with
zero rows. -/
theorem claim7_empty_table (e : List String → List String) (sep : String) (t : Table)
    (hrows : t.rows = [])
    (hcols : requiredColumns.all (fun c => t.columns.contains c) = true) :
    process e sep (some t) = (some t, some ⟨["Type", "Object Name"], []⟩) := by
  have hv : validationError t = none := by
    unfold validationError
    rw [hcols]
    rfl
  have hg : groupTable e sep t = some ⟨["Type", "Object Name"], []⟩ := by
    unfold groupTable sortedKeysOf nonNullKeys
    rw [hrows]
    rfl
  simp [process, hv, hg]

/-- C7, witness: the theorem applied to the empty table `tableEmptyRev`,
whose required columns appear in reversed order. -/
theorem claim7_empty_table_witness :
    tableEmptyRev.rows = [] ∧
      requiredColumns.all (fun c => tableEmptyRev.columns.contains c) = true ∧
      process (fun l => l.dedup) " OR " (some tableEmptyRev) =
        (some tableEmptyRev, some ⟨["Type", "Object Name"], []⟩) :=
  ⟨by decide, by decide,
    claim7_empty_table (fun l => l.dedup) " OR " tableEmptyRev rfl (by decide)⟩

/-- C8, counterexample: two admissible set enumerations — both returning
the distinct values, as `list(set(...))` does, but in different orders —
produce different derived tables on `tableTwoVals`, refuting cell-for-cell
determinism of the grouping as a function of table and separator alone. -/
theorem claim8_counterexample :
    IsSetEnum (fun l => l.dedup) ∧ IsSetEnum revDedup ∧
      groupTable (fun l => l.dedup) " OR " tableTwoVals ≠
        groupTable revDedup " OR " tableTwoVals :=
  ⟨isSetEnum_dedup, isSetEnum_revDedup, by decide⟩

/-- C8 (amended): two invocations of the grouping on the same table and
separator succeed or fail together, and on success produce derived tables
with the same columns and the same group keys in the same order, where for
each group the two joined cells contain the same set of deduplicated
values; cell-for-cell equality of the joined strings holds whenever the
two invocations use the same set-iteration order (as within one Python
process), but not across different set-iteration orders. -/
theorem claim8_determinism (e₁ e₂ : List String → List String)
    (h₁ : IsSetEnum e₁) (h₂ : IsSetEnum e₂) (sep : String) (t : Table) :
    (groupTable e₁ sep t).isSome = (groupTable e₂ sep t).isSome ∧
      ∀ g₁ g₂, groupTable e₁ sep t = some g₁ → groupTable e₂ sep t = some g₂ →
        g₁.columns = g₂.columns ∧ derivedKeys g₁ = derivedKeys g₂ ∧
          ∀ k ∈ sortedKeysOf t.columns t.rows,
            List.Perm (e₁ (strValuesFor t.columns t.rows k))
              (e₂ (strValuesFor t.columns t.rows k)) := by
  constructor
  · cases hc : (groupTable e₂ sep t).isSome with
    | true =>
      exact groupTable_isSome_iff.mpr (groupTable_isSome_iff.mp hc)
    | false =>
      cases hc' : (groupTable e₁ sep t).isSome with
      | false => rfl
      | true =>
        have h2 : (groupTable e₂ sep t).isSome = true :=
          groupTable_isSome_iff.mpr (groupTable_isSome_iff.mp hc')
        rw [hc] at h2
        exact Bool.noConfusion h2
  · intro g₁ g₂ hg₁ hg₂
    obtain ⟨hq₁, -⟩ := groupTable_eq_some hg₁
    obtain ⟨hq₂, -⟩ := groupTable_eq_some hg₂
    refine ⟨?_, ?_, ?_⟩
    · rw [hq₁, hq₂]
    · rw [derivedKeys_of_groupTable hg₁, derivedKeys_of_groupTable hg₂]
    · intro k _
      exact setEnum_perm h₁ h₂ _

/-- C8, witness: the amended theorem applied to `tableTwoVals` with the
two enumerations of the counterexample. -/
theorem claim8_determinism_witness :
    IsSetEnum (fun l => l.dedup) ∧ IsSetEnum revDedup ∧
      ((groupTable (fun l => l.dedup) " OR " tableTwoVals).isSome =
          (groupTable revDedup " OR " tableTwoVals).isSome ∧
        ∀ g₁ g₂, groupTable (fun l => l.dedup) " OR " tableTwoVals = some g₁ →
          groupTable revDedup " OR " tableTwoVals = some g₂ →
          g₁.columns = g₂.columns ∧ derivedKeys g₁ = derivedKeys g₂ ∧
            ∀ k ∈ sortedKeysOf tableTwoVals.columns tableTwoVals.rows,
              List.Perm ((fun l => l.dedup) (strValuesFor tableTwoVals.columns tableTwoVals.rows k))
                (revDedup (strValuesFor tableTwoVals.columns tableTwoVals.rows k))) :=
  ⟨isSetEnum_dedup, isSetEnum_revDedup,
    claim8_determinism (fun l => l.dedup) revDedup isSetEnum_dedup isSetEnum_revDedup
      " OR " tableTwoVals⟩

end GroupedExcel
